import Mathlib

/-
Shallow embedding of the mirror_mygithub program (Go, package main).
The authoritative source is src/unnamed/part_000; its main pieces are
fetchApiContent (the paginated fetcher), doExec (the command runner with
bounded retry) and syncRepos (the per-repository reconciler).  Go strings
are modelled as List Char, the HTTP world as a function from endpoint to
response, the filesystem stat/mkdir calls as environment functions, and
process-terminating events (log.Fatalf, runtime panics) as explicit
outcome constructors.
-/

/-- Go strings.Split with a one-character separator: splitting the empty
string yields a single empty field, exactly as in Go. -/
def splitOnChar (c : Char) : List Char → List (List Char)
  | [] => [[]]
  | x :: xs =>
    match splitOnChar c xs with
    | [] => [[]]
    | y :: ys => if x = c then [] :: y :: ys else (x :: y) :: ys

/-- Boolean list-prefix test used to implement the substring test below. -/
def isPrefixChars : List Char → List Char → Bool
  | [], _ => true
  | _ :: _, [] => false
  | x :: xs, y :: ys => x = y && isPrefixChars xs ys

/-- Go strings.Contains: does the needle occur (case-sensitively) inside
the haystack. -/
def containsSub (needle : List Char) : List Char → Bool
  | [] => isPrefixChars needle []
  | y :: ys => isPrefixChars needle (y :: ys) || containsSub needle ys

/-- The Go slice expression s[1 : len(s)-1].  It is a runtime panic
(slice bounds out of range) unless the string has length at least 2;
the panic is modelled by returning none. -/
def goSliceTrim (s : List Char) : Option (List Char) :=
  if 2 ≤ s.length then some ((s.drop 1).take (s.length - 2)) else none

/-- One repository record parsed from a listing page (type Repo in the
source: full_name and ssh_url). -/
structure Repo where
  fullName : List Char
  sshUrl : List Char
deriving DecidableEq, Repr

/-- One HTTP response as the fetcher observes it: whether client.Do
returned an error, the status code, the Link header (empty list when the
header is absent), and the parsed body (none when reading or JSON
unmarshalling would panic). -/
structure Response where
  transportError : Bool
  statusCode : Nat
  linkHeader : List Char
  body : Option (List Repo)
deriving DecidableEq, Repr

/-- Outcome of a fetch walk: normal return with the accumulated records,
the number of requests issued and the list of courtesy-delay durations;
fatal process termination via log.Fatalf; a runtime panic; or fuel
exhaustion (the Go loop is unbounded, the model carries fuel). -/
inductive FetchOut where
  | ok (reps : List Repo) (requests : Nat) (delays : List Nat)
  | fatal (requests : Nat)
  | panicked (requests : Nat)
  | outOfFuel
deriving DecidableEq, Repr

/-- The substring the pagination code looks for in the relation part of
the first link entry. -/
def nextMarker : List Char := "next".data

/-- The loop body of fetchApiContent, one page per fuel unit.  Faithful
to the source order: transport error then non-200 status are fatal; the
Link header is split on a comma and only entry zero is split on
semicolons; the next endpoint is entry zero's first part with its first
and last character stripped (a panic when that part is shorter than two
characters, before the body is read); the body is then parsed (a panic
when malformed); finally part one of entry zero (a panic when there is
no semicolon) decides continuation: if it contains "next" the walk
sleeps 2 time units and continues at the stripped URL, otherwise it
returns the accumulated records. -/
def fetchLoop (server : List Char → Response) :
    Nat → List Char → List Repo → Nat → List Nat → FetchOut
  | 0, _, _, _, _ => .outOfFuel
  | fuel + 1, api, acc, reqs, dels =>
    let rsp := server api
    if rsp.transportError then .fatal (reqs + 1)
    else if rsp.statusCode ≠ 200 then .fatal (reqs + 1)
    else
      let entry := (splitOnChar ',' rsp.linkHeader).headD []
      let link := splitOnChar ';' entry
      match goSliceTrim (link.headD []) with
      | none => .panicked (reqs + 1)
      | some api2 =>
        match rsp.body with
        | none => .panicked (reqs + 1)
        | some rs =>
          match link.get? 1 with
          | none => .panicked (reqs + 1)
          | some rel =>
            if containsSub nextMarker rel then
              fetchLoop server fuel api2 (acc ++ rs) (reqs + 1) (dels ++ [2])
            else .ok (acc ++ rs) (reqs + 1) dels

/-- fetchApiContent: start the walk with an empty accumulator. -/
def fetchApiContent (server : List Char → Response) (fuel : Nat)
    (api : List Char) : FetchOut :=
  fetchLoop server fuel api [] 0 []

/-- Result of one spawned command attempt: cmd.Run() returns nil on a
zero exit (success), an ExitError carrying the exit code on a non-zero
exit, and some other error on a spawn failure. -/
inductive ExitOutcome where
  | success
  | exitCode (n : Nat)
  | spawnError
deriving DecidableEq, Repr

/-- One command attempt as the runner observes it: the captured stderr
stream and the run outcome. -/
structure Attempt where
  stderr : List Char
  outcome : ExitOutcome
deriving DecidableEq, Repr

/-- The content-takedown marker the runner looks for in captured
stderr (case-sensitive). -/
def takedownMarker : List Char := "DMCA takedown".data

/-- Why the runner's loop ended. -/
inductive StopReason where
  | success
  | takedown
  | exitOne
  | exhausted
deriving DecidableEq, Repr

/-- What a doExec run did: how many attempts were spawned, why the loop
ended, and the list of retry-sleep durations (milliseconds). -/
structure ExecResult where
  attemptsMade : Nat
  stop : StopReason
  sleeps : List Nat
deriving DecidableEq, Repr

/-- Test for the exit-status-1 special case (the ExitError with
WaitStatus whose ExitStatus() is 1). -/
def isExitOne : ExitOutcome → Bool
  | .exitCode 1 => true
  | _ => false

/-- The retry loop of doExec, faithful to the source order: a nil error
(zero exit) stops the loop; otherwise stderr containing the takedown
marker stops it; otherwise an exit status of exactly 1 stops it;
otherwise the error is logged, the runner sleeps 200 ms and retries.
The attempt outcomes are predetermined by the environment function
`attempts` (attempt i is `attempts i`). -/
def doExecLoop (attempts : Nat → Attempt) : Nat → Nat → List Nat → ExecResult
  | 0, made, sleeps => ⟨made, .exhausted, sleeps⟩
  | fuel + 1, made, sleeps =>
    let a := attempts made
    if a.outcome = .success then ⟨made + 1, .success, sleeps⟩
    else if containsSub takedownMarker a.stderr then ⟨made + 1, .takedown, sleeps⟩
    else if isExitOne a.outcome then ⟨made + 1, .exitOne, sleeps⟩
    else doExecLoop attempts fuel (made + 1) (sleeps ++ [200])

/-- doExec: the loop runs for at most 20 attempts (for i := 0; i < 20;
i++).  The function returns in every case; it never surfaces an error
to its caller. -/
def doExec (attempts : Nat → Attempt) : ExecResult :=
  doExecLoop attempts 20 0 []

/-- An attempt the runner classifies as transient: not a success, no
takedown marker in stderr, and not an exit status of exactly 1. -/
def transientAttempt (a : Attempt) : Prop :=
  a.outcome ≠ .success ∧ containsSub takedownMarker a.stderr = false ∧
    isExitOne a.outcome = false

instance (a : Attempt) : Decidable (transientAttempt a) := by
  unfold transientAttempt; infer_instance

/-- Result of an os.Stat call on a path: success, the specific
does-not-exist error, or any other error (for example a permission
error on a path that does exist). -/
inductive StatResult where
  | ok
  | errNotExist
  | errOther
deriving DecidableEq, Repr

/-- Observable actions of the reconciler, in program order: a recursive
directory creation with its permission bits, a change of working
directory, one command-runner invocation (name and argument list), and
the process-terminating log.Fatalf. -/
inductive SyncEvent where
  | mkdirAll (path : List Char) (perm : Nat)
  | chdir (path : List Char)
  | cmd (name : List Char) (args : List (List Char))
  | fatalStop
deriving DecidableEq, Repr

/-- The local directory of a record: fmt.Sprintf of rootDir, a slash
and the record's full name. -/
def localDirOf (rootDir : List Char) (r : Repo) : List Char :=
  rootDir ++ '/' :: r.fullName

def gitName : List Char := "git".data

def cloneArg : List Char := "clone".data

def resetArg : List Char := "reset".data

def hardArg : List Char := "--hard".data

def pullArg : List Char := "pull".data

def rebaseArg : List Char := "--rebase".data

/-- The body of the syncRepos per-record loop.  Faithful to the source:
if os.Stat of localDir returns any error (err != nil, not specifically
a does-not-exist error) the reconciler runs os.MkdirAll(localDir, 0700)
— fatal via log.Fatalf when that fails — and then one runner invocation
"git clone <ssh_url> <localDir>"; if Stat succeeds it runs os.Chdir
into the directory and then the two runner invocations
"git reset --hard" and "git pull --rebase", in that order.  Each cmd
event is one doExec invocation (retries happen inside the runner). -/
def syncOne (stat : List Char → StatResult) (mkdirOk : List Char → Bool)
    (rootDir : List Char) (r : Repo) : List SyncEvent :=
  let localDir := localDirOf rootDir r
  if stat localDir ≠ .ok then
    if mkdirOk localDir then
      [.mkdirAll localDir 0o700, .cmd gitName [cloneArg, r.sshUrl, localDir]]
    else
      [.mkdirAll localDir 0o700, .fatalStop]
  else
    [.chdir localDir, .cmd gitName [resetArg, hardArg],
      .cmd gitName [pullArg, rebaseArg]]

/-- syncRepos over the fetched record list: records are processed in
order; a fatal directory-creation failure terminates the whole run. -/
def syncRepos (stat : List Char → StatResult) (mkdirOk : List Char → Bool)
    (rootDir : List Char) : List Repo → List SyncEvent
  | [] => []
  | r :: rs =>
    let evs := syncOne stat mkdirOk rootDir r
    if SyncEvent.fatalStop ∈ evs then evs
    else evs ++ syncRepos stat mkdirOk rootDir rs

/-- The directory of a path is missing when Stat reports the specific
does-not-exist error. -/
def dirMissing (stat : List Char → StatResult) (p : List Char) : Prop :=
  stat p = .errNotExist

/-- The directory of a path is present when Stat does not report the
does-not-exist error: either Stat succeeds, or it fails for another
reason (for example a permission error) although the path exists. -/
def dirPresent (stat : List Char → StatResult) (p : List Char) : Prop :=
  stat p ≠ .errNotExist

instance (stat : List Char → StatResult) (p : List Char) :
    Decidable (dirPresent stat p) := by
  unfold dirPresent; infer_instance

instance (stat : List Char → StatResult) (p : List Char) :
    Decidable (dirMissing stat p) := by
  unfold dirMissing; infer_instance

/-- Modelled from the spec: the next-endpoint selection the spec's
pagination contract describes (section 6: comma-separated link entries
of the form url-in-angle-brackets followed by a relation; the
implementer parses out the URL of the entry carrying the "next"
relation, wherever it appears, and stops when no such entry exists).
This is the spec-side definition used to compare with the source's
first-entry-only behaviour. -/
def claimNextUrl (hdr : List Char) : Option (List Char) :=
  (splitOnChar ',' hdr).findSome? fun e =>
    match splitOnChar ';' e with
    | p0 :: p1 :: _ => if containsSub nextMarker p1 then goSliceTrim p0 else none
    | _ => none

/-- Abstract state of one local repository working copy: which commit
its head is at and whether it carries local modifications. -/
structure RepoState where
  head : Nat
  dirty : Bool
deriving DecidableEq, Repr

/-- Modelled from the spec: the effect of the external version-control
executable, which is outside this repository (section 6, external
command interface, and the glossary entry for reconciliation): clone
produces a clean working copy at the remote's latest state, reset
discards local modifications, rebase-pull brings the local head to the
remote's latest state.  Directory creation, directory changes and the
fatal marker do not change the working-copy content. -/
def applyEvent (remoteHead : Nat) (s : Option RepoState) :
    SyncEvent → Option RepoState
  | .cmd _ args =>
    if args.headD [] = cloneArg then some ⟨remoteHead, false⟩
    else if args.headD [] = resetArg then s.map fun st => ⟨st.head, false⟩
    else if args.headD [] = pullArg then s.map fun st => ⟨remoteHead, st.dirty⟩
    else s
  | _ => s

/-- Fold the event interpretation over a reconciliation trace. -/
def runEvents (remoteHead : Nat) (s : Option RepoState)
    (evs : List SyncEvent) : Option RepoState :=
  evs.foldl (applyEvent remoteHead) s

/-- The Stat answer a repository state induces: the directory exists
exactly when a working copy is there. -/
def statOf (s : Option RepoState) : StatResult :=
  match s with
  | some _ => .ok
  | none => .errNotExist

/-- Modelled from the spec: one reconciliation pass of the source's
syncRepos body over a single repository, interpreted on the abstract
working-copy state, with directory creation succeeding (the spec makes
a creation failure fatal; the idempotence claim presumes a writable
root). -/
def reconcileStep (remoteHead : Nat) (rootDir : List Char) (r : Repo)
    (s : Option RepoState) : Option RepoState :=
  runEvents remoteHead s (syncOne (fun _ => statOf s) (fun _ => true) rootDir r)

/-- The relation part of a canonical next-entry of a Link header. -/
def nextRelPart : List Char := (" rel=\"next\"").data

/-- A canonical Link-header entry announcing the next page: the URL in
angle brackets, a semicolon, and the next relation. -/
def mkNextHeader (u : List Char) : List Char :=
  '<' :: u ++ '>' :: ';' :: nextRelPart

/-- A Link header on which the source's first-entry parsing terminates
the walk cleanly: the first comma-separated entry splits at semicolons
into a URL part of length at least two (so the bracket-stripping slice
does not panic) and a relation part not containing "next". -/
def stopHeader (hdr : List Char) : Prop :=
  ∃ p0 p1 ps,
    splitOnChar ';' ((splitOnChar ',' hdr).headD []) = p0 :: p1 :: ps ∧
      2 ≤ p0.length ∧ containsSub nextMarker p1 = false

/-- A server serves a listing of the given (nonempty) page sequence
starting at a given endpoint: every page answers with status 200 and no
transport error; every page but the last carries a canonical next link
to the following page's endpoint; the last page carries a header on
which the walk stops cleanly. -/
inductive Serves (server : List Char → Response) :
    List Char → List (List Repo) → Prop
  | last (u : List Char) (body : List Repo) (hdr : List Char)
      (hresp : server u = ⟨false, 200, hdr, some body⟩)
      (hstop : stopHeader hdr) :
      Serves server u [body]
  | step (u u2 : List Char) (body : List Repo) (ps : List (List Repo))
      (hresp : server u = ⟨false, 200, mkNextHeader u2, some body⟩)
      (hc : ',' ∉ u2) (hs : ';' ∉ u2)
      (htail : Serves server u2 ps) :
      Serves server u (body :: ps)

/-- Concatenation of the pages of a listing, page order then in-page
order. -/
def joinPages : List (List Repo) → List Repo
  | [] => []
  | p :: ps => p ++ joinPages ps

/-
Concrete instances used by witnesses and counterexamples.
-/

def repoOne : Repo := ⟨"alice/one".data, "git@h:alice/one.git".data⟩

def repoTwo : Repo := ⟨"alice/two".data, "git@h:alice/two.git".data⟩

/-- A final-page Link header: only a prev relation in the first entry. -/
def lastHeader : List Char := ("<p>; rel=\"prev\"").data

/-- A two-page listing server used to witness the full-walk theorem. -/
def demoServer : List Char → Response := fun u =>
  if u = "page2".data then ⟨false, 200, lastHeader, some [repoTwo]⟩
  else ⟨false, 200, mkNextHeader ("page2".data), some [repoOne]⟩

/-- A Link header whose first entry carries a prev relation and whose
second entry carries the next relation. -/
def forkHeader : List Char := ("<a>; rel=\"prev\",<b>; rel=\"next\"").data

/-- A server whose first page answers with forkHeader and which also
serves the page behind the second entry's URL. -/
def forkServer : List Char → Response := fun u =>
  if u = "b".data then ⟨false, 200, lastHeader, some [repoTwo]⟩
  else ⟨false, 200, forkHeader, some [repoOne]⟩

/-- A server answering 204 No Content (a 2xx status other than 200). -/
def server204 : List Char → Response := fun _ =>
  ⟨false, 204, lastHeader, some []⟩

/-- A server answering 200 with records but with no Link header at all
(the header value is the empty string). -/
def noLinkServer : List Char → Response := fun _ =>
  ⟨false, 200, [], some [repoOne]⟩

/-- A Stat environment that fails on every path with an error other
than does-not-exist (for example a permission error). -/
def statOther : List Char → StatResult := fun _ => .errOther

/-- A Stat environment that reports every path as missing. -/
def statMissing : List Char → StatResult := fun _ => .errNotExist

/-- A MkdirAll environment that always succeeds. -/
def mkdirAlways : List Char → Bool := fun _ => true

/-- A MkdirAll environment that always fails. -/
def mkdirNever : List Char → Bool := fun _ => false

/-- A command that fails every attempt with exit code 2 and clean
stderr: every attempt is transient. -/
def demoTransient : Nat → Attempt := fun _ => ⟨[], .exitCode 2⟩

/-- A command whose stderr carries the takedown marker while exiting
with code 128. -/
def demoTakedown : Nat → Attempt := fun _ => ⟨takedownMarker, .exitCode 128⟩

/-- A command exiting with status exactly 1 and clean stderr. -/
def demoExitOne : Nat → Attempt := fun _ => ⟨[], .exitCode 1⟩

/-
Helper lemmas about splitOnChar and the canonical headers.
-/

theorem splitOnChar_ne_nil (c : Char) (l : List Char) :
    splitOnChar c l ≠ [] := by
  cases l with
  | nil => simp [splitOnChar]
  | cons x xs =>
    simp only [splitOnChar]
    cases h : splitOnChar c xs with
    | nil => simp
    | cons y ys => by_cases hx : x = c <;> simp [hx]

theorem splitOnChar_not_mem (c : Char) (l : List Char) (h : c ∉ l) :
    splitOnChar c l = [l] := by
  induction l with
  | nil => rfl
  | cons x xs ih =>
    simp only [List.mem_cons, not_or] at h
    have hx : ¬ x = c := fun he => h.1 he.symm
    simp only [splitOnChar]
    rw [ih h.2]
    simp [hx]

theorem splitOnChar_append (c : Char) (a b : List Char) (h : c ∉ a) :
    splitOnChar c (a ++ c :: b) = a :: splitOnChar c b := by
  induction a with
  | nil =>
    simp only [List.nil_append, splitOnChar]
    cases hb : splitOnChar c b with
    | nil => exact absurd hb (splitOnChar_ne_nil c b)
    | cons y ys => simp
  | cons x xs ih =>
    simp only [List.mem_cons, not_or] at h
    have hx : ¬ x = c := fun he => h.1 he.symm
    simp only [List.cons_append, splitOnChar, List.append_eq]
    rw [ih h.2]
    simp [hx]

theorem comma_not_mem_mkNextHeader (u : List Char) (hc : ',' ∉ u) :
    ',' ∉ mkNextHeader u := by
  intro hmem
  simp only [mkNextHeader] at hmem
  rcases List.mem_append.mp hmem with h | h
  · rcases List.mem_cons.mp h with h1 | h1
    · exact absurd h1 (by decide)
    · exact hc h1
  · exact absurd h (by decide)

theorem mkNextHeader_split (u : List Char) (hc : ',' ∉ u) (hs : ';' ∉ u) :
    splitOnChar ';' ((splitOnChar ',' (mkNextHeader u)).headD []) =
      [('<' :: u ++ ['>']), nextRelPart] := by
  rw [splitOnChar_not_mem ',' _ (comma_not_mem_mkNextHeader u hc)]
  have hform : mkNextHeader u = ('<' :: u ++ ['>']) ++ ';' :: nextRelPart := by
    simp [mkNextHeader]
  have hsemi : ';' ∉ ('<' :: u ++ ['>']) := by
    intro hmem
    rcases List.mem_append.mp hmem with h | h
    · rcases List.mem_cons.mp h with h1 | h1
      · exact absurd h1 (by decide)
      · exact hs h1
    · exact absurd h (by decide)
  simp only [List.headD_cons]
  rw [hform, splitOnChar_append ';' _ _ hsemi,
    splitOnChar_not_mem ';' nextRelPart (by decide)]

theorem goSliceTrim_angle (u : List Char) :
    goSliceTrim ('<' :: u ++ ['>']) = some u := by
  show goSliceTrim ('<' :: (u ++ ['>'])) = some u
  have hlen : ('<' :: (u ++ ['>'])).length = u.length + 2 := by
    simp
  simp only [goSliceTrim, hlen]
  rw [if_pos (by omega)]
  have h2 : u.length + 2 - 2 = u.length := by omega
  simp only [List.drop_succ_cons, List.drop_zero, h2]
  rw [List.take_left]

theorem Serves_ne_nil {server : List Char → Response} {u : List Char}
    {pages : List (List Repo)} (h : Serves server u pages) : pages ≠ [] := by
  cases h <;> simp

theorem fetchLoop_serves (server : List Char → Response)
    (pages : List (List Repo)) (u : List Char) (h : Serves server u pages) :
    ∀ (k : Nat) (acc : List Repo) (reqs : Nat) (dels : List Nat),
    fetchLoop server (pages.length + k) u acc reqs dels =
      .ok (acc ++ joinPages pages) (reqs + pages.length)
        (dels ++ List.replicate (pages.length - 1) 2) := by
  induction h with
  | last u body hdr hresp hstop =>
    intro k acc reqs dels
    obtain ⟨p0, p1, ps, hsplit, hlen, hnext⟩ := hstop
    have hfuel : ([body] : List (List Repo)).length + k = k + 1 := by
      simp [Nat.add_comm]
    rw [hfuel]
    simp only [fetchLoop, hresp]
    rw [hsplit]
    simp [hlen, hnext, goSliceTrim, joinPages, List.get?]
  | step u u2 body ps hresp hc hs htail ih =>
    intro k acc reqs dels
    have hne : ps ≠ [] := Serves_ne_nil htail
    obtain ⟨q, hq⟩ : ∃ q, ps.length = q + 1 :=
      ⟨ps.length - 1, by
        have : 0 < ps.length := List.length_pos.mpr hne
        omega⟩
    have hfuel : (body :: ps).length + k = (ps.length + k) + 1 := by
      simp only [List.length_cons]; omega
    rw [hfuel]
    simp only [fetchLoop, hresp]
    rw [mkNextHeader_split u2 hc hs]
    simp only [List.headD_cons, goSliceTrim_angle, List.get?]
    have hrel : containsSub nextMarker nextRelPart = true := by decide
    simp only [hrel, if_true]
    rw [ih k (acc ++ body) (reqs + 1) (dels ++ [2])]
    simp [FetchOut.ok.injEq, joinPages, hq, List.replicate_succ,
      List.append_assoc]
    omega

theorem fetchLoop_fatal_gt (server : List Char → Response) :
    ∀ (fuel : Nat) (api : List Char) (acc : List Repo) (reqs : Nat)
      (dels : List Nat) (n : Nat),
    fetchLoop server fuel api acc reqs dels = .fatal n → reqs < n := by
  intro fuel
  induction fuel with
  | zero =>
    intro api acc reqs dels n h
    simp [fetchLoop] at h
  | succ fuel ih =>
    intro api acc reqs dels n h
    simp only [fetchLoop] at h
    split at h
    · injection h with h2; omega
    · split at h
      · injection h with h2; omega
      · split at h
        · injection h
        · split at h
          · injection h
          · split at h
            · injection h
            · split at h
              · have hlt := ih _ _ _ _ _ h; omega
              · injection h

theorem doExecLoop_le (attempts : Nat → Attempt) :
    ∀ (fuel made : Nat) (sleeps : List Nat),
    (doExecLoop attempts fuel made sleeps).attemptsMade ≤ made + fuel := by
  intro fuel
  induction fuel with
  | zero =>
    intro made sleeps
    simp [doExecLoop]
  | succ fuel ih =>
    intro made sleeps
    simp only [doExecLoop]
    split
    · show made + 1 ≤ made + (fuel + 1); omega
    · split
      · show made + 1 ≤ made + (fuel + 1); omega
      · split
        · show made + 1 ≤ made + (fuel + 1); omega
        · have h := ih (made + 1) (sleeps ++ [200]); omega

theorem doExecLoop_skip (attempts : Nat → Attempt) :
    ∀ (k fuel made : Nat) (sleeps : List Nat),
    (∀ j, j < k → transientAttempt (attempts (made + j))) →
    doExecLoop attempts (k + fuel) made sleeps =
      doExecLoop attempts fuel (made + k) (sleeps ++ List.replicate k 200) := by
  intro k
  induction k with
  | zero =>
    intro fuel made sleeps _
    simp
  | succ k ih =>
    intro fuel made sleeps h
    have h0 : transientAttempt (attempts made) := by
      have := h 0 (by omega)
      simpa using this
    obtain ⟨hs, ht, he⟩ := h0
    have hstep : (k + 1) + fuel = (k + fuel) + 1 := by omega
    rw [hstep]
    simp only [doExecLoop]
    rw [if_neg hs, if_neg (by simp [ht]), if_neg (by simp [he])]
    have h2 : ∀ j, j < k → transientAttempt (attempts (made + 1 + j)) := by
      intro j hj
      have hx := h (j + 1) (by omega)
      have he2 : made + 1 + j = made + (j + 1) := by omega
      rw [he2]
      exact hx
    rw [ih fuel (made + 1) (sleeps ++ [200]) h2]
    have e1 : made + 1 + k = made + (k + 1) := by omega
    have e2 : (sleeps ++ [200]) ++ List.replicate k 200 =
        sleeps ++ List.replicate (k + 1) 200 := by
      simp [List.append_assoc, List.replicate_succ]
    rw [e1, e2]

theorem reconcileStep_some (remoteHead : Nat) (rootDir : List Char)
    (r : Repo) (st : RepoState) :
    reconcileStep remoteHead rootDir r (some st) = some ⟨remoteHead, false⟩ := by
  have h1 : resetArg ≠ cloneArg := by decide
  have h2 : pullArg ≠ cloneArg := by decide
  have h3 : pullArg ≠ resetArg := by decide
  simp [reconcileStep, syncOne, statOf, runEvents, applyEvent, h1, h2, h3]

theorem reconcileStep_none (remoteHead : Nat) (rootDir : List Char)
    (r : Repo) :
    reconcileStep remoteHead rootDir r none = some ⟨remoteHead, false⟩ := by
  simp [reconcileStep, syncOne, statOf, runEvents, applyEvent]

/-
Claim theorems.
-/

/-- C1 (code bug): the spec says a listing whose first response carries
no next relation — including a response with no Link header at all —
terminates the walk after one request and returns that page's records.
On a 200 response with records but an absent Link header the source
instead panics (slice bounds out of range in api = link[0][1:len-1])
after the single request, and in particular does not return the page's
records. -/
theorem claim1_no_link_header_panics :
    fetchApiContent noLinkServer 1 ("u".data) = .panicked 1 ∧
      fetchApiContent noLinkServer 1 ("u".data) ≠ .ok [repoOne] 1 [] := by
  exact ⟨by decide, by decide⟩

/-- C3: every command whose attempts are all transient (non-zero exit
other than 1, or spawn error, no takedown marker in stderr) is retried
with a 200 ms pause after each failed attempt, at most 20 attempts are
made in total, and exhausting them makes the runner return normally
(stop reason exhausted, never a fatal escalation — the result type has
no fatal outcome at all). -/
theorem claim3_transient_retry_bounded (attempts : Nat → Attempt) :
    (doExec attempts).attemptsMade ≤ 20 ∧
      ((∀ j, j < 20 → transientAttempt (attempts j)) →
        doExec attempts = ⟨20, .exhausted, List.replicate 20 200⟩) := by
  constructor
  · have h := doExecLoop_le attempts 20 0 []
    simpa [doExec] using h
  · intro h
    unfold doExec
    have h2 : ∀ j, j < 20 → transientAttempt (attempts (0 + j)) := by
      intro j hj
      simpa using h j hj
    have h3 := doExecLoop_skip attempts 20 0 0 [] h2
    simpa [doExecLoop] using h3

/-- Witness for C3 at a command failing every attempt with exit code 2:
exactly 20 attempts, exhausted, twenty 200 ms sleeps. -/
theorem claim3_witness :
    (doExec demoTransient).attemptsMade ≤ 20 ∧
      doExec demoTransient = ⟨20, .exhausted, List.replicate 20 200⟩ := by
  have h := claim3_transient_retry_bounded demoTransient
  refine ⟨h.1, h.2 ?_⟩
  intro j hj
  exact (by decide : transientAttempt ⟨[], .exitCode 2⟩)

/-- C4: if the walk reaches attempt k (all earlier attempts transient)
and attempt k's captured stderr contains the takedown marker, the
runner stops at attempt k + 1 total attempts — regardless of the exit
code, even on the first attempt — with no further retry and no sleep
for that attempt, and returns without escalating an error (it stops as
takedown, or as success when the command exited zero). -/
theorem claim4_takedown_stops (attempts : Nat → Attempt) (k : Nat)
    (hk : k < 20)
    (hprev : ∀ j, j < k → transientAttempt (attempts j))
    (hmark : containsSub takedownMarker (attempts k).stderr = true) :
    (doExec attempts).attemptsMade = k + 1 ∧
      (doExec attempts).sleeps = List.replicate k 200 ∧
      ((doExec attempts).stop = .takedown ∨ (doExec attempts).stop = .success) := by
  unfold doExec
  have h20 : (20 : Nat) = k + ((19 - k) + 1) := by omega
  rw [h20]
  have hprev2 : ∀ j, j < k → transientAttempt (attempts (0 + j)) := by
    intro j hj
    simpa using hprev j hj
  rw [doExecLoop_skip attempts k ((19 - k) + 1) 0 [] hprev2]
  simp only [Nat.zero_add, List.nil_append, doExecLoop]
  by_cases hsucc : (attempts k).outcome = .success
  · simp [hsucc]
  · simp [hsucc, hmark]

/-- Witness for C4: a command whose very first attempt writes the
takedown marker to stderr and exits 128 stops after exactly one
attempt with no sleep. -/
theorem claim4_witness :
    (doExec demoTakedown).attemptsMade = 1 ∧
      (doExec demoTakedown).sleeps = [] ∧
      ((doExec demoTakedown).stop = .takedown ∨
        (doExec demoTakedown).stop = .success) := by
  have h := claim4_takedown_stops demoTakedown 0 (by omega)
    (fun j hj => absurd hj (by omega)) (by decide)
  simpa using h

/-- C5: if the walk reaches attempt k (all earlier attempts transient)
and attempt k exits with status code exactly 1, the runner stops at
attempt k + 1 total attempts with no further retry and no sleep for
that attempt, treating the outcome as benign (stop reason exitOne, or
takedown when the marker is also present — never an escalated
failure). -/
theorem claim5_exit_one_stops (attempts : Nat → Attempt) (k : Nat)
    (hk : k < 20)
    (hprev : ∀ j, j < k → transientAttempt (attempts j))
    (hexit : (attempts k).outcome = .exitCode 1) :
    (doExec attempts).attemptsMade = k + 1 ∧
      (doExec attempts).sleeps = List.replicate k 200 ∧
      ((doExec attempts).stop = .exitOne ∨ (doExec attempts).stop = .takedown) := by
  unfold doExec
  have h20 : (20 : Nat) = k + ((19 - k) + 1) := by omega
  rw [h20]
  have hprev2 : ∀ j, j < k → transientAttempt (attempts (0 + j)) := by
    intro j hj
    simpa using hprev j hj
  rw [doExecLoop_skip attempts k ((19 - k) + 1) 0 [] hprev2]
  simp only [Nat.zero_add, List.nil_append, doExecLoop]
  have hsucc : ¬ (attempts k).outcome = .success := by
    simp [hexit]
  by_cases hmark : containsSub takedownMarker (attempts k).stderr = true
  · simp [hsucc, hmark]
  · have hone : isExitOne (attempts k).outcome = true := by
      simp [hexit, isExitOne]
    simp [hsucc, hmark, hone]

/-- Witness for C5: a command whose very first attempt exits with
status 1 stops after exactly one attempt with no sleep. -/
theorem claim5_witness :
    (doExec demoExitOne).attemptsMade = 1 ∧
      (doExec demoExitOne).sleeps = [] ∧
      ((doExec demoExitOne).stop = .exitOne ∨
        (doExec demoExitOne).stop = .takedown) := by
  have h := claim5_exit_one_stops demoExitOne 0 (by omega)
    (fun j hj => absurd hj (by omega)) (by decide)
  simpa using h

/-- C6: for every paginated listing of N pages served as the spec's
pagination contract describes (each non-final page announcing the next
endpoint, the final page announcing none), the fetcher returns exactly
the concatenation of the page bodies in page order then in-page order,
performs exactly N requests, and sleeps exactly N - 1 courtesy delays
of 2 time units, a delay occurring only after a next relation was
found. -/
theorem claim6_full_walk (server : List Char → Response) (u : List Char)
    (pages : List (List Repo)) (k : Nat) (h : Serves server u pages) :
    fetchApiContent server (pages.length + k) u =
      .ok (joinPages pages) pages.length
        (List.replicate (pages.length - 1) 2) := by
  have h2 := fetchLoop_serves server pages u h k [] 0 []
  simpa [fetchApiContent] using h2

/-- Witness for C6 at a concrete two-page listing: two requests, one
2-unit delay, both pages' records in order. -/
theorem claim6_witness :
    fetchApiContent demoServer 2 ("page1".data) =
      .ok [repoOne, repoTwo] 2 [2] := by
  have hserves : Serves demoServer ("page1".data) [[repoOne], [repoTwo]] := by
    refine Serves.step _ ("page2".data) _ _ ?_ (by decide) (by decide) ?_
    · decide
    · exact Serves.last _ _ lastHeader (by decide)
        ⟨"<p>".data, (" rel=\"prev\"").data, [], by decide, by decide, by decide⟩
  have h := claim6_full_walk demoServer ("page1".data) [[repoOne], [repoTwo]]
    0 hserves
  simpa [joinPages] using h

/-- C7 (counterexample): a response whose link header carries the next
relation in its second comma-separated entry.  The spec-side selector
finds that entry's URL, but the source terminates the walk after one
request with only the first page's records — it never looks past the
first entry, refuting the claim that the next entry is selected
wherever it appears. -/
theorem claim7_counterexample :
    claimNextUrl forkHeader = some ("b".data) ∧
      fetchApiContent forkServer 3 ("start".data) = .ok [repoOne] 1 [] := by
  exact ⟨by decide, by decide⟩

/-- C7 (amended): the fetcher inspects only the first comma-separated
entry of the link header: when that entry's URL part has length at
least 2 (no slice panic), the walk continues exactly when that first
entry's relation part contains "next" — taking the first entry's
bracket-stripped URL as the next endpoint — and terminates otherwise,
even when a later entry carries the next relation. -/
theorem claim7_first_entry_only (server : List Char → Response)
    (fuel : Nat) (api : List Char) (acc : List Repo) (reqs : Nat)
    (dels : List Nat) (p0 p1 : List Char) (ps : List (List Char))
    (rs : List Repo)
    (hte : (server api).transportError = false)
    (hst : (server api).statusCode = 200)
    (hbody : (server api).body = some rs)
    (hsplit : splitOnChar ';' ((splitOnChar ',' (server api).linkHeader).headD [])
      = p0 :: p1 :: ps)
    (hlen : 2 ≤ p0.length) :
    (containsSub nextMarker p1 = true →
      fetchLoop server (fuel + 1) api acc reqs dels =
        fetchLoop server fuel ((p0.drop 1).take (p0.length - 2)) (acc ++ rs)
          (reqs + 1) (dels ++ [2])) ∧
    (containsSub nextMarker p1 = false →
      fetchLoop server (fuel + 1) api acc reqs dels =
        .ok (acc ++ rs) (reqs + 1) dels) := by
  constructor <;> intro hnext <;>
    · simp only [fetchLoop]
      rw [hsplit]
      simp [hte, hst, hbody, goSliceTrim, hlen, hnext, List.get?]

/-- Witness for C7's amended theorem at the forked header: the first
entry's relation is prev, so the walk stops after this page although
the second entry carries next. -/
theorem claim7_witness :
    fetchLoop forkServer 1 ("start".data) [] 0 [] = .ok [repoOne] 1 [] := by
  have h := claim7_first_entry_only forkServer 0 ("start".data) [] 0 []
    ("<a>".data) ((" rel=\"prev\"").data) []
    [repoOne] (by decide) (by decide) (by decide) (by decide) (by decide)
  exact h.2 (by decide)

/-- C8 (counterexample): a 204 No Content response — a 2xx status the
claim says must be accepted — makes the fetcher terminate fatally
after one request. -/
theorem claim8_counterexample :
    (200 ≤ 204 ∧ 204 < 300) ∧
      fetchApiContent server204 1 ("u".data) = .fatal 1 := by
  exact ⟨by omega, by decide⟩

/-- C8 (amended): at every page the fetcher terminates the process
fatally — no retry, no partial result, the walk ends at that request —
if and only if the transport returned an error or the status code is
not exactly 200; only status 200 is accepted (other 2xx statuses are
rejected fatally). -/
theorem claim8_fatal_iff_not_200 (server : List Char → Response)
    (fuel : Nat) (api : List Char) (acc : List Repo) (reqs : Nat)
    (dels : List Nat) :
    fetchLoop server (fuel + 1) api acc reqs dels = .fatal (reqs + 1) ↔
      ((server api).transportError = true ∨ (server api).statusCode ≠ 200) := by
  constructor
  · intro h
    by_contra hn
    push_neg at hn
    obtain ⟨ht, hs⟩ := hn
    have ht2 : (server api).transportError = false := by
      cases hb : (server api).transportError
      · rfl
      · exact absurd hb ht
    simp only [fetchLoop] at h
    rw [if_neg (by simp [ht2]), if_neg (by simp [hs])] at h
    split at h
    · injection h
    · split at h
      · injection h
      · split at h
        · injection h
        · split at h
          · have hlt := fetchLoop_fatal_gt server fuel _ _ _ _ _ h
            omega
          · injection h
  · intro h
    simp only [fetchLoop]
    rcases h with h | h
    · rw [if_pos h]
    · rcases Bool.eq_false_or_eq_true (server api).transportError with ht | ht
      · rw [if_pos ht]
      · rw [if_neg (by simp [ht]), if_pos h]

/-- Witness for C8's amended theorem: status 204 with no transport
error is fatal at the first page. -/
theorem claim8_witness :
    fetchLoop server204 1 ("u".data) [] 0 [] = .fatal 1 := by
  exact (claim8_fatal_iff_not_200 server204 0 ("u".data) [] 0 []).mpr
    (Or.inr (by decide))

/-- C2 (counterexample): a record whose local directory is present —
Stat does not report does-not-exist, it fails with another error such
as a permission error — for which the reconciler nevertheless takes
the creation-and-clone branch: the trace is MkdirAll followed by a
clone command and contains neither a working-directory change nor a
reset or pull, refuting the claim that an existing directory always
receives reset then pull and never clone. -/
theorem claim2_counterexample :
    dirPresent statOther (localDirOf ("/r".data) repoOne) ∧
      syncOne statOther mkdirAlways ("/r".data) repoOne =
        [.mkdirAll (localDirOf ("/r".data) repoOne) 0o700,
          .cmd gitName [cloneArg, repoOne.sshUrl,
            localDirOf ("/r".data) repoOne]] := by
  exact ⟨by decide, by decide⟩

/-- C2 (amended): the branch decision is made on the Stat outcome, not
on existence.  When Stat returns any error the reconciler emits exactly
MkdirAll of localRoot/fullName with owner-only permissions followed by
exactly one clone command with the record's clone locator as source and
that directory as destination (and the fatal stop instead of the clone
when creation fails), never a reset or pull; when Stat succeeds it
emits exactly a working-directory change into the directory, then a
hard-reset command, then a rebase-pull command, in that order, never a
clone. -/
theorem claim2_stat_decides_branch (stat : List Char → StatResult)
    (mkdirOk : List Char → Bool) (rootDir : List Char) (r : Repo) :
    (stat (localDirOf rootDir r) ≠ .ok →
      (mkdirOk (localDirOf rootDir r) = true →
        syncOne stat mkdirOk rootDir r =
          [.mkdirAll (localDirOf rootDir r) 0o700,
            .cmd gitName [cloneArg, r.sshUrl, localDirOf rootDir r]]) ∧
      (mkdirOk (localDirOf rootDir r) = false →
        syncOne stat mkdirOk rootDir r =
          [.mkdirAll (localDirOf rootDir r) 0o700, .fatalStop])) ∧
    (stat (localDirOf rootDir r) = .ok →
      syncOne stat mkdirOk rootDir r =
        [.chdir (localDirOf rootDir r), .cmd gitName [resetArg, hardArg],
          .cmd gitName [pullArg, rebaseArg]]) := by
  refine ⟨fun hne => ⟨fun hmk => ?_, fun hmk => ?_⟩, fun hok => ?_⟩
  · simp [syncOne, hne, hmk]
  · simp [syncOne, hne, hmk]
  · simp [syncOne, hok]

/-- Witness for C2's amended theorem: a missing directory receives
MkdirAll then one clone command. -/
theorem claim2_witness :
    syncOne statMissing mkdirAlways ("/r".data) repoOne =
      [.mkdirAll (localDirOf ("/r".data) repoOne) 0o700,
        .cmd gitName [cloneArg, repoOne.sshUrl,
          localDirOf ("/r".data) repoOne]] := by
  exact ((claim2_stat_decides_branch statMissing mkdirAlways ("/r".data)
    repoOne).1 (by decide)).1 (by decide)

/-- C9: reconciliation is idempotent.  For an already-cloned repository
whose remote has no upstream changes, a second pass emits only the
working-directory change, the reset and the pull — no directory
creation and no fatal stop — and, under the spec-modelled command
semantics, repeating a reconciliation pass from any starting state
(including the interrupted states none and any working copy) reaches
the same end state as a single uninterrupted pass. -/
theorem claim9_idempotent (remoteHead : Nat) (rootDir : List Char)
    (r : Repo) (st : RepoState) (_hup : st.head = remoteHead) :
    syncOne (fun _ => statOf (reconcileStep remoteHead rootDir r (some st)))
        (fun _ => true) rootDir r =
      [.chdir (localDirOf rootDir r), .cmd gitName [resetArg, hardArg],
        .cmd gitName [pullArg, rebaseArg]] ∧
    reconcileStep remoteHead rootDir r
        (reconcileStep remoteHead rootDir r (some st)) =
      reconcileStep remoteHead rootDir r (some st) ∧
    (∀ s : Option RepoState,
      reconcileStep remoteHead rootDir r (reconcileStep remoteHead rootDir r s) =
        reconcileStep remoteHead rootDir r s) := by
  have hall : ∀ s : Option RepoState,
      reconcileStep remoteHead rootDir r (reconcileStep remoteHead rootDir r s) =
        reconcileStep remoteHead rootDir r s := by
    intro s
    cases s with
    | none =>
      rw [reconcileStep_none, reconcileStep_some]
    | some st2 =>
      rw [reconcileStep_some, reconcileStep_some]
  refine ⟨?_, hall (some st), hall⟩
  rw [reconcileStep_some]
  simp [syncOne, statOf]

/-- Witness for C9 at a concrete repository already at the remote's
head. -/
theorem claim9_witness :
    syncOne (fun _ => statOf (reconcileStep 5 ("/r".data) repoOne
        (some ⟨5, false⟩))) (fun _ => true) ("/r".data) repoOne =
      [.chdir (localDirOf ("/r".data) repoOne),
        .cmd gitName [resetArg, hardArg],
        .cmd gitName [pullArg, rebaseArg]] ∧
    reconcileStep 5 ("/r".data) repoOne
        (reconcileStep 5 ("/r".data) repoOne (some ⟨5, false⟩)) =
      reconcileStep 5 ("/r".data) repoOne (some ⟨5, false⟩) ∧
    (∀ s : Option RepoState,
      reconcileStep 5 ("/r".data) repoOne
          (reconcileStep 5 ("/r".data) repoOne s) =
        reconcileStep 5 ("/r".data) repoOne s) := by
  exact claim9_idempotent 5 ("/r".data) repoOne ⟨5, false⟩ rfl

/-- C10: the clone-vs-update decision is made on whether Stat returned
any error, not specifically non-existence.  For a record whose path is
present but whose Stat fails with another error (for example a
permission error) the reconciler takes the creation-and-clone branch:
MkdirAll then one clone command when creation succeeds, MkdirAll then
the fatal stop when it fails — never the reset-and-pull branch. -/
theorem claim10_any_stat_error_clones (stat : List Char → StatResult)
    (mkdirOk : List Char → Bool) (rootDir : List Char) (r : Repo)
    (h : stat (localDirOf rootDir r) = .errOther) :
    dirPresent stat (localDirOf rootDir r) ∧
      (mkdirOk (localDirOf rootDir r) = true →
        syncOne stat mkdirOk rootDir r =
          [.mkdirAll (localDirOf rootDir r) 0o700,
            .cmd gitName [cloneArg, r.sshUrl, localDirOf rootDir r]]) ∧
      (mkdirOk (localDirOf rootDir r) = false →
        syncOne stat mkdirOk rootDir r =
          [.mkdirAll (localDirOf rootDir r) 0o700, .fatalStop]) := by
  refine ⟨?_, fun hmk => ?_, fun hmk => ?_⟩
  · simp [dirPresent, h]
  · simp [syncOne, h, hmk]
  · simp [syncOne, h, hmk]

/-- Witness for C10 at a concrete record whose Stat fails with a
non-missing error while directory creation fails: the trace is MkdirAll
then the fatal stop. -/
theorem claim10_witness :
    dirPresent statOther (localDirOf ("/s".data) repoTwo) ∧
      (mkdirNever (localDirOf ("/s".data) repoTwo) = true →
        syncOne statOther mkdirNever ("/s".data) repoTwo =
          [.mkdirAll (localDirOf ("/s".data) repoTwo) 0o700,
            .cmd gitName [cloneArg, repoTwo.sshUrl,
              localDirOf ("/s".data) repoTwo]]) ∧
      (mkdirNever (localDirOf ("/s".data) repoTwo) = false →
        syncOne statOther mkdirNever ("/s".data) repoTwo =
          [.mkdirAll (localDirOf ("/s".data) repoTwo) 0o700, .fatalStop]) := by
  exact claim10_any_stat_error_clones statOther mkdirNever ("/s".data)
    repoTwo (by decide)
